import Mathlib

/-!
Verification development for the nntrainer tensor engine.

The embedded code is `src/src/tensor.cpp` (the 3-axis `Tensor` class holding
`batch`, `height`, `width` and a flat `data` buffer of `len = height*width*batch`
floats) and `src/unnamed/part_000` (`activation_layer.cpp`, with
`ActivationLayer::softmax` and `ActivationLayer::softmaxPrime`).

Machine floats are embedded as exact rationals (`ℚ`); the flat buffer is a
total function `ℕ → ℚ` whose values beyond `len` are irrelevant to every
operation (freshly constructed tensors are zero-initialized, which the
embedding models with an explicit `else 0` branch).  Loops that write each
in-range flat index exactly once are translated to the closed-form index
expression they realize; loops whose write pattern is itself in question
(the fallback `sum`) are translated literally as folds of pointwise updates.
-/

/-- The 3-axis tensor of `tensor.cpp`: `batch`, `height`, `width` and the flat
`data` buffer.  `len` is derived as in the constructor (line 35). -/
structure Tensor where
  batch : ℕ
  height : ℕ
  width : ℕ
  data : ℕ → ℚ

/-- Embeds `len = height * width * batch` (constructor, tensor.cpp line 35). -/
def Tensor.len (t : Tensor) : ℕ := t.height * t.width * t.batch

/-- Size of one batch slice, `height * width`. -/
def Tensor.featSize (t : Tensor) : ℕ := t.height * t.width

/-- Embeds `Tensor::getValue(batch, h, w)`, which returns
`data[batch*height*width + h*width + w]` (tensor.cpp lines 50-52). -/
def Tensor.getValue (t : Tensor) (b h w : ℕ) : ℚ :=
  t.data (b * t.height * t.width + h * t.width + w)

/-- The flat contents of batch slice `k`: `data[k*height*width + r]`. -/
def Tensor.slice (t : Tensor) (k r : ℕ) : ℚ :=
  t.data (k * (t.height * t.width) + r)

/-- Embeds `Tensor::add(Tensor const &m)` fallback path (tensor.cpp lines 144-157),
past the `assert(height == m.height && width == m.width)` guard.
If `m.batch == 1` the loop writes, for `k < batch` and `i < m.len`,
`result[k*m.len + i] = data[k*m.len + i] + m.data[i]`; otherwise it writes
`result[k] = data[k] + m.data[k]` for `k < len`.  Each in-range flat index is
written exactly once, with `i = idx % (m.height*m.width)`; the constructor
zero-initializes everything else. -/
def Tensor.add (t m : Tensor) : Tensor :=
  { batch := t.batch, height := t.height, width := t.width,
    data := fun idx =>
      if idx < t.len then
        if m.batch = 1 then t.data idx + m.data (idx % (m.height * m.width))
        else t.data idx + m.data idx
      else 0 }

/-- Embeds `Tensor::multiply(Tensor const &m)` (tensor.cpp lines 198-229), past the
assert: the 4-way-unrolled loop plus its tail (`j = i`) cover every in-range
index once; with `m.batch == 1` the factor index is reduced modulo the slice
size, else the product is taken at the same flat index. -/
def Tensor.multiply (t m : Tensor) : Tensor :=
  { batch := t.batch, height := t.height, width := t.width,
    data := fun idx =>
      if idx < t.len then
        if m.batch = 1 then t.data idx * m.data (idx % (m.height * m.width))
        else t.data idx * m.data idx
      else 0 }

/-- Embeds `Tensor::add(Tensor)` including its guard
`assert(height == m.height && width == m.width)` (tensor.cpp line 131):
the assert aborts, so the fallible operation is an `Option`. -/
def Tensor.addChecked (t m : Tensor) : Option Tensor :=
  if t.height = m.height ∧ t.width = m.width then some (t.add m) else none

/-- Embeds `Tensor::multiply(Tensor)` including its guard (tensor.cpp line 199). -/
def Tensor.multiplyChecked (t m : Tensor) : Option Tensor :=
  if t.height = m.height ∧ t.width = m.width then some (t.multiply m) else none

/-- One axis is compatible under the broadcasting rule of the spec when the sizes
agree or either side is 1.  (Stated from the words of the spec, for
comparison with the guard in the code.) -/
def axisCompatible (a b : ℕ) : Prop := a = b ∨ a = 1 ∨ b = 1

instance (a b : ℕ) : Decidable (axisCompatible a b) := by
  unfold axisCompatible; infer_instance

/-- The legality condition claimed by the spec for binary elementwise operations:
per-axis compatibility on every axis of the shape.  (Stated from the words of the
spec; the tensor of this code carries the three axes batch/height/width, the
channel axis of the spec not existing in this class.) -/
def specBroadcastable (t m : Tensor) : Prop :=
  axisCompatible t.batch m.batch ∧ axisCompatible t.height m.height ∧
    axisCompatible t.width m.width

instance (t m : Tensor) : Decidable (specBroadcastable t m) := by
  unfold specBroadcastable; infer_instance

/-- A (1,2,3) tensor of zeros. -/
def tShape123 : Tensor := ⟨1, 2, 3, fun _ => 0⟩

/-- A (1,1,3) tensor of zeros. -/
def tShape113 : Tensor := ⟨1, 1, 3, fun _ => 0⟩

/-- A (2,2,3) tensor of zeros. -/
def tShape223 : Tensor := ⟨2, 2, 3, fun _ => 0⟩

/-- A (3,2,3) tensor of zeros. -/
def tShape323 : Tensor := ⟨3, 2, 3, fun _ => 0⟩

/-- C1 counterexample: legality in the code is NOT per-axis broadcasting.
A (1,2,3) and a (1,1,3) tensor are compatible under the per-axis rule of the spec
(heights 2 vs 1), yet `add` and `multiply` reject them (the assert checks
`height == m.height`); a (2,2,3) and a (3,2,3) tensor disagree on the batch
axis with neither side 1, which the rule of the spec rejects, yet the code
computes a result (no batch check in the assert). -/
theorem addBroadcastLegality_cex :
    (specBroadcastable tShape123 tShape113 ∧
      (tShape123.addChecked tShape113).isNone = true ∧
      (tShape123.multiplyChecked tShape113).isNone = true) ∧
    (¬ specBroadcastable tShape223 tShape323 ∧
      (tShape223.addChecked tShape323).isSome = true ∧
      (tShape223.multiplyChecked tShape323).isSome = true) := by
  refine ⟨⟨by decide, ?_, ?_⟩, by decide, ?_, ?_⟩ <;>
    simp [Tensor.addChecked, Tensor.multiplyChecked, tShape123, tShape113,
      tShape223, tShape323]

/-- C1 (amended): a binary elementwise operation (`add`, `multiply`) is legal
exactly when the operand heights and widths are equal; the batch axis is
not part of the guard at all. -/
theorem addBroadcastLegality :
    ∀ t m : Tensor,
      ((t.addChecked m).isSome = true ∧ (t.multiplyChecked m).isSome = true) ↔
        (t.height = m.height ∧ t.width = m.width) := by
  intro t m
  by_cases h : t.height = m.height ∧ t.width = m.width <;>
    simp [Tensor.addChecked, Tensor.multiplyChecked, h]

/-- C5: batch-broadcast of `add`.  For a right operand with `m.batch = 1` and
matching height/width, every batch slice `k` of `t.add m` is the slice-wise
sum of slice `k` of `t` with the single batch row of `m`. -/
theorem add_batchBroadcast (t m : Tensor)
    (hb : m.batch = 1) (hh : m.height = t.height) (hw : m.width = t.width) :
    (t.add m).batch = t.batch ∧ (t.add m).height = t.height ∧
      (t.add m).width = t.width ∧
      ∀ k, k < t.batch → ∀ r, r < t.height * t.width →
        (t.add m).slice k r = t.slice k r + m.slice 0 r := by
  refine ⟨rfl, rfl, rfl, ?_⟩
  intro k hk r hr
  have hfs : 0 < t.height * t.width := Nat.pos_of_ne_zero (by omega)
  have hidx : k * (t.height * t.width) + r < t.len := by
    unfold Tensor.len
    have h1 : (k + 1) * (t.height * t.width) =
        k * (t.height * t.width) + t.height * t.width := by ring
    have h2 : (k + 1) * (t.height * t.width) ≤ t.batch * (t.height * t.width) :=
      Nat.mul_le_mul_right _ (by omega)
    have h3 : t.height * t.width * t.batch = t.batch * (t.height * t.width) := by
      ring
    omega
  have hmod : (k * (t.height * t.width) + r) % (m.height * m.width) = r := by
    rw [hh, hw]
    rw [Nat.mul_comm k (t.height * t.width), Nat.mul_add_mod]
    exact Nat.mod_eq_of_lt hr
  unfold Tensor.slice Tensor.add
  simp only [hb, if_pos hidx, if_pos rfl, hmod]
  simp [Nat.zero_mul]

/-- C5 witness: a concrete (2,1,2) left operand added to a (1,1,2) right
operand, slice 1 position 1: `t[1,1] + m[1] = 4 + 20 = 24`. -/
theorem add_batchBroadcast_witness :
    (1 : ℕ) < 2 ∧ (1 : ℕ) < 1 * 2 ∧
      ((⟨2, 1, 2, fun i => [1, 2, 3, 4].getD i 0⟩ : Tensor).add
          ⟨1, 1, 2, fun i => [10, 20].getD i 0⟩).slice 1 1 = 24 := by
  refine ⟨by decide, by decide, ?_⟩
  have h := add_batchBroadcast
    (⟨2, 1, 2, fun i => [1, 2, 3, 4].getD i 0⟩ : Tensor)
    (⟨1, 1, 2, fun i => [10, 20].getD i 0⟩ : Tensor) rfl rfl rfl
  have h2 := h.2.2.2 1 (by decide) 1 (by decide)
  rw [h2]
  simp [Tensor.slice]
  norm_num

/-- Embeds `Tensor::add(float)` accelerated path (tensor.cpp lines 115-120):
`scopy` copies all `len` elements, then `saxpy(len, value, ones, result)`
adds `value` to every element. -/
def Tensor.addScalarBlas (t : Tensor) (v : ℚ) : Tensor :=
  { batch := t.batch, height := t.height, width := t.width,
    data := fun idx => if idx < t.len then t.data idx + v else 0 }

/-- Embeds `Tensor::add(float)` fallback path (tensor.cpp lines 122-124): the loop
runs `for (k = 0; k < batch; ++k)`, so only the first `batch` elements get
`data[k] + value`; the rest of the zero-initialized result stays 0. -/
def Tensor.addScalarFallback (t : Tensor) (v : ℚ) : Tensor :=
  { batch := t.batch, height := t.height, width := t.width,
    data := fun idx => if idx < t.batch then t.data idx + v else 0 }

/-- Embeds `Tensor::sum()` accelerated path (tensor.cpp lines 272-274): for each
batch `k`, `ret.data[k] = cblas_sasum(width*height, &data[k*width*height], 1)`,
the sum of ABSOLUTE values of the slice.  Result dimension `(batch, 1, 1)`. -/
def Tensor.sumBlas (t : Tensor) : Tensor :=
  { batch := t.batch, height := 1, width := 1,
    data := fun k =>
      if k < t.batch then
        ∑ i in Finset.range (t.width * t.height), |t.data (k * t.width * t.height + i)|
      else 0 }

/-- Embeds `Tensor::sum()` fallback path (tensor.cpp lines 276-283), literally:
for each `k < batch`, with `id = k * width * height`, set `ret.data[id] = 0`
and accumulate `ret.data[id] += data[id + i]` for `i < height*width` — a fold
of pointwise updates at index `id` (NOT at index `k`) over the
zero-initialized `(batch, 1, 1)` result buffer. -/
def Tensor.sumFallback (t : Tensor) : Tensor :=
  { batch := t.batch, height := 1, width := 1,
    data :=
      (List.range t.batch).foldl
        (fun f k =>
          Function.update f (k * t.width * t.height)
            (∑ i in Finset.range (t.height * t.width),
              t.data (k * t.width * t.height + i)))
        (fun _ => 0) }

/-- A (1,1,2) tensor holding [5, 7]. -/
def tPair57 : Tensor := ⟨1, 1, 2, fun i => [5, 7].getD i 0⟩

/-- A (1,1,1) tensor holding [-1]. -/
def tNegOne : Tensor := ⟨1, 1, 1, fun _ => -1⟩

/-- C4: the accelerated and fallback kernel paths disagree beyond rounding.
Scalar add on the (1,1,2) tensor [5,7] with value 1: the BLAS path yields 8
at flat index 1, the fallback yields 0 (its loop stops at `batch`, leaving
the element zero).  Batch sum of the (1,1,1) tensor [-1]: the BLAS path
(`sasum`, absolute values) yields 1, the fallback yields -1. -/
theorem backendParity_cex :
    (tPair57.addScalarBlas 1).data 1 = 8 ∧
      (tPair57.addScalarFallback 1).data 1 = 0 ∧ (8 : ℚ) ≠ 0 ∧
      (tNegOne.sumBlas).data 0 = 1 ∧ (tNegOne.sumFallback).data 0 = -1 ∧
      (1 : ℚ) ≠ -1 := by
  refine ⟨?_, ?_, by norm_num, ?_, ?_, by norm_num⟩
  · norm_num [Tensor.addScalarBlas, Tensor.len, tPair57]
  · norm_num [Tensor.addScalarFallback, tPair57]
  · norm_num [Tensor.sumBlas, tNegOne, Finset.sum_range_succ]
  · norm_num [Tensor.sumFallback, tNegOne, List.range_succ,
      Function.update, Finset.sum_range_succ]

/-- The flat indices `j` visited by the tail loop of the fallback
`Tensor::divide(Tensor)` (tensor.cpp lines 248 and 258): after the 4-way
unrolled loop ends at `i = (s/4)*4` (with `s` the slice length
`width*height`, resp. `len`), the tail runs `for (int j = i - 1; j < s; ++j)`,
so `j` ranges over the integers from `(s/4)*4 - 1` to `s - 1`. -/
def divideTailIndices (s : ℕ) : List Int :=
  (List.range (s - s / 4 * 4 + 1)).map
    (fun n => ((s / 4 * 4 : ℕ) : Int) - 1 + n)

/-- The flat indices of the `(batch,1,1)` result written by the fallback
`Tensor::sum()` (tensor.cpp line 278): `id = k * width * height` for each
`k < batch`. -/
def sumWriteIndices (batch height width : ℕ) : List ℕ :=
  (List.range batch).map (fun k => k * width * height)

/-- C6: the fallback loops do index out of range.  For two (1,1,2) tensors
(slice length `width*height = 2 < 4`), the tail loop of divide starts at
`j = -1`, reading `m.data[-1]` and writing `result.data[-1]`, outside
`[0, length)`.  For a (2,1,3) tensor, the fallback sum writes its batch-1
total at flat index `1*width*height = 3`, outside the index range `[0, 2)`
of the `(2,1,1)` result. -/
theorem boundsSafety_cex :
    ((-1 : Int) ∈ divideTailIndices (1 * 2)) ∧ ¬ ((0 : Int) ≤ -1) ∧
      ((3 : ℕ) ∈ sumWriteIndices 2 1 3) ∧ ¬ ((3 : ℕ) < 1 * 1 * 2) := by
  refine ⟨?_, by decide, ?_, by decide⟩
  · decide
  · decide

/-- Embeds `Tensor::divide(float)` fallback path (tensor.cpp lines 106-108):
`result.data[k] = data[k] / value` for every `k < len`. -/
def Tensor.divideScalar (t : Tensor) (v : ℚ) : Tensor :=
  { batch := t.batch, height := t.height, width := t.width,
    data := fun idx => if idx < t.len then t.data idx / v else 0 }

/-- The (2,1,3) tensor [[1,2,3],[4,5,6]] of the concrete scenario in the spec. -/
def tScenario : Tensor := ⟨2, 1, 3, fun i => [1, 2, 3, 4, 5, 6].getD i 0⟩

/-- C9: dividing [[1,2,3],[4,5,6]] by scalar 2 yields [[1/2,1,3/2],[2,5/2,3]]
exactly as claimed; but the batch sum only matches the claimed [6, 15] on the
accelerated path — the fallback path writes the batch-1 total at flat index
`1*width*height = 3` (out of the 2-element result), leaving entry 1 at 0
instead of 15. -/
theorem scenarioDivideSum :
    ((tScenario.divideScalar 2).data 0 = 1 / 2 ∧
      (tScenario.divideScalar 2).data 1 = 1 ∧
      (tScenario.divideScalar 2).data 2 = 3 / 2 ∧
      (tScenario.divideScalar 2).data 3 = 2 ∧
      (tScenario.divideScalar 2).data 4 = 5 / 2 ∧
      (tScenario.divideScalar 2).data 5 = 3) ∧
    ((tScenario.sumBlas).data 0 = 6 ∧ (tScenario.sumBlas).data 1 = 15) ∧
    ((tScenario.sumFallback).batch = 2 ∧ (tScenario.sumFallback).data 0 = 6 ∧
      (tScenario.sumFallback).data 1 = 0 ∧ (0 : ℚ) ≠ 15) := by
  refine ⟨⟨?_, ?_, ?_, ?_, ?_, ?_⟩, ⟨?_, ?_⟩, rfl, ?_, ?_, by norm_num⟩ <;>
    norm_num [Tensor.divideScalar, Tensor.sumBlas, Tensor.sumFallback,
      Tensor.len, tScenario, Finset.sum_range_succ, List.range_succ,
      Function.update]

/-- Embeds `Tensor::average()` (tensor.cpp lines 436-451): when `batch == 1` the
tensor itself is returned; otherwise the result is a `(1, height, width)`
tensor whose entry at flat position `i*width + j` is
`(sum over k < batch of data[k*width*height + i*width + j]) / batch`. -/
def Tensor.average (t : Tensor) : Tensor :=
  if t.batch = 1 then t
  else
    { batch := 1, height := t.height, width := t.width,
      data := fun idx =>
        if idx < t.height * t.width then
          (∑ k in Finset.range t.batch, t.data (k * t.width * t.height + idx)) /
            (t.batch : ℚ)
        else 0 }

/-- The (2,1,2) tensor [[1,2],[3,4]]. -/
def tQuad : Tensor := ⟨2, 1, 2, fun i => [1, 2, 3, 4].getD i 0⟩

/-- C7 counterexample: `average()` does NOT average over all axes.  On
[[1,2],[3,4]] the mean of all elements is 5/2, but the code returns the
per-position batch mean: a (1,1,2) tensor whose entry 0 is (1+3)/2 = 2. -/
theorem averageAllAxes_cex :
    (tQuad.average).data 0 = 2 ∧
      ((1 : ℚ) + 2 + 3 + 4) / 4 = 5 / 2 ∧ (2 : ℚ) ≠ 5 / 2 ∧
      (tQuad.average).batch = 1 ∧ (tQuad.average).height = 1 ∧
      (tQuad.average).width = 2 := by
  refine ⟨?_, by norm_num, by norm_num, ?_, ?_, ?_⟩ <;>
    norm_num [Tensor.average, tQuad, Finset.sum_range_succ]

/-- C7 (amended): `average()` reduces the batch axis only.  For `batch == 1`
it returns the tensor unchanged; for `batch ≠ 1` it returns a
`(1, height, width)` tensor whose entry at `(i, j)` is the mean over the
batch axis of the entries at `(k, i, j)`. -/
theorem average_batchAxis (t : Tensor) :
    (t.batch = 1 → t.average = t) ∧
    (t.batch ≠ 1 →
      (t.average.batch = 1 ∧ t.average.height = t.height ∧
        t.average.width = t.width ∧
        ∀ i, i < t.height → ∀ j, j < t.width →
          t.average.getValue 0 i j =
            (∑ k in Finset.range t.batch, t.getValue k i j) / (t.batch : ℚ))) := by
  constructor
  · intro h; simp [Tensor.average, h]
  · intro h
    simp only [Tensor.average, if_neg h]
    refine ⟨trivial, trivial, trivial, ?_⟩
    intro i hi j hj
    have hidx : i * t.width + j < t.height * t.width := by
      have h1 : (i + 1) * t.width = i * t.width + t.width := by ring
      have h2 : (i + 1) * t.width ≤ t.height * t.width :=
        Nat.mul_le_mul_right _ (by omega)
      omega
    unfold Tensor.getValue
    simp only [Nat.zero_mul, Nat.zero_add, if_pos hidx]
    congr 1
    refine Finset.sum_congr rfl ?_
    intro k _
    congr 1
    ring

/-- C7 witness: the amended theorem applied to [[1,2],[3,4]]:
entry (0,1) of the average is (2 + 4)/2 = 3. -/
theorem average_batchAxis_witness :
    tQuad.batch ≠ 1 ∧ (0 : ℕ) < 1 ∧ (1 : ℕ) < 2 ∧
      tQuad.average.getValue 0 0 1 = 3 := by
  refine ⟨by decide, by decide, by decide, ?_⟩
  have h := (average_batchAxis tQuad).2 (by decide)
  have h2 := h.2.2.2 0 (by decide) 1 (by decide)
  rw [h2]
  norm_num [Tensor.getValue, tQuad, Finset.sum_range_succ]

/-- Embeds `Tensor::save` (tensor.cpp lines 422-425): writes the `len` elements of
the flat buffer to the stream in buffer order, nothing else (no header). -/
def Tensor.save (t : Tensor) : List ℚ := (List.range t.len).map t.data

/-- Embeds `Tensor::read` (tensor.cpp lines 427-430): consumes `len` consecutive
elements from the stream into `data[0..len)`, leaving shape untouched. -/
def Tensor.read (t : Tensor) (file : List ℚ) : Tensor :=
  { t with
    data := fun idx => if idx < t.len then file.getD idx (t.data idx)
            else t.data idx }

/-- C10: save/read roundtrip.  Saving `t` and reading the stream into a
tensor `t2` of identical shape reproduces the original element values
exactly on the whole buffer, and leaves the shape as supplied. -/
theorem saveRead_roundtrip (t t2 : Tensor)
    (hb : t2.batch = t.batch) (hh : t2.height = t.height)
    (hw : t2.width = t.width) :
    (t2.read t.save).batch = t.batch ∧ (t2.read t.save).height = t.height ∧
      (t2.read t.save).width = t.width ∧
      ∀ idx, idx < t.len → (t2.read t.save).data idx = t.data idx := by
  have hlen : t2.len = t.len := by unfold Tensor.len; rw [hb, hh, hw]
  refine ⟨hb, hh, hw, ?_⟩
  intro idx hidx
  unfold Tensor.read Tensor.save
  simp only
  rw [if_pos (hlen ▸ hidx)]
  rw [List.getD_eq_getElem?_getD, List.getElem?_map, List.getElem?_range hidx]
  rfl

/-- C10 witness: a (1,1,2) tensor [5,7] saved and read back into a fresh
(1,1,2) tensor reproduces 7 at index 1. -/
theorem saveRead_roundtrip_witness :
    ((⟨1, 1, 2, fun _ => 0⟩ : Tensor).read tPair57.save).data 1 = 7 := by
  have h := saveRead_roundtrip tPair57 ⟨1, 1, 2, fun _ => 0⟩ rfl rfl rfl
  rw [h.2.2.2 1 (by decide)]
  norm_num [tPair57]

/-- Embeds `Tensor::dot(Tensor const &m)` fallback path (tensor.cpp lines 318-345),
past the `assert(width == m.height)` guard.  The result is
`(batch, height, m.width)`; the loops write, at
`result[k*height*mwidth + i*mwidth + j]`, the accumulated inner product:
with `m.batch == 1`, `sum over h < width of
data[k*height*width + i*width + h] * m.data[h*mwidth + j]`; otherwise the
`m` factor is read from slice `k`: `m.data[k*width*mwidth + h*mwidth + j]`.
The written flat index decomposes as `k = idx / (height*mwidth)`,
`i = idx % (height*mwidth) / mwidth`, `j = idx % mwidth`. -/
def Tensor.dot (t m : Tensor) : Tensor :=
  { batch := t.batch, height := t.height, width := m.width,
    data := fun idx =>
      if idx < t.height * m.width * t.batch then
        if m.batch = 1 then
          ∑ h in Finset.range t.width,
            t.data (idx / (t.height * m.width) * (t.height * t.width) +
              idx % (t.height * m.width) / m.width * t.width + h) *
            m.data (h * m.width + idx % m.width)
        else
          ∑ h in Finset.range t.width,
            t.data (idx / (t.height * m.width) * (t.height * t.width) +
              idx % (t.height * m.width) / m.width * t.width + h) *
            m.data (idx / (t.height * m.width) * (t.width * m.width) +
              h * m.width + idx % m.width)
      else 0 }

/-- Entry `(i, j)` of the ordinary matrix product of `A` (rows indexed first)
and `B`, contracting over `inner` — the reference the spec compares `dot`
against. -/
def matProdEntry (A B : ℕ → ℕ → ℚ) (inner i j : ℕ) : ℚ :=
  ∑ h in Finset.range inner, A i h * B h j

/-- The value `dot` stores at the flat position of `(k, i, j)`. -/
theorem dot_data (t m : Tensor) (k i j : ℕ)
    (hk : k < t.batch) (hi : i < t.height) (hj : j < m.width) :
    (t.dot m).data (k * t.height * m.width + i * m.width + j) =
      if m.batch = 1 then
        ∑ h in Finset.range t.width,
          t.data (k * (t.height * t.width) + i * t.width + h) *
            m.data (h * m.width + j)
      else
        ∑ h in Finset.range t.width,
          t.data (k * (t.height * t.width) + i * t.width + h) *
            m.data (k * (t.width * m.width) + h * m.width + j) := by
  have hW : 0 < m.width := by omega
  have hHW : 0 < t.height * m.width := by
    have : 0 < t.height := by omega
    exact Nat.mul_pos this hW
  have e1 : k * t.height * m.width + i * m.width + j =
      k * (t.height * m.width) + (i * m.width + j) := by ring
  have hr : i * m.width + j < t.height * m.width := by
    have h1 : (i + 1) * m.width = i * m.width + m.width := by ring
    have h2 : (i + 1) * m.width ≤ t.height * m.width :=
      Nat.mul_le_mul_right _ (by omega)
    omega
  have hlen : k * (t.height * m.width) + (i * m.width + j) <
      t.height * m.width * t.batch := by
    have h2 : (k + 1) * (t.height * m.width) =
        k * (t.height * m.width) + t.height * m.width := by ring
    have h3 : (k + 1) * (t.height * m.width) ≤ t.batch * (t.height * m.width) :=
      Nat.mul_le_mul_right _ (by omega)
    have h4 : t.height * m.width * t.batch = t.batch * (t.height * m.width) := by
      ring
    omega
  have hdiv : (k * (t.height * m.width) + (i * m.width + j)) /
      (t.height * m.width) = k := by
    rw [show k * (t.height * m.width) + (i * m.width + j) =
        t.height * m.width * k + (i * m.width + j) from by ring,
      Nat.mul_add_div hHW, Nat.div_eq_of_lt hr, Nat.add_zero]
  have hmod : (k * (t.height * m.width) + (i * m.width + j)) %
      (t.height * m.width) = i * m.width + j := by
    rw [show k * (t.height * m.width) + (i * m.width + j) =
        t.height * m.width * k + (i * m.width + j) from by ring,
      Nat.mul_add_mod, Nat.mod_eq_of_lt hr]
  have hdiv2 : (i * m.width + j) / m.width = i := by
    rw [show i * m.width + j = m.width * i + j from by ring,
      Nat.mul_add_div hW, Nat.div_eq_of_lt hj, Nat.add_zero]
  have hmodW : (k * (t.height * m.width) + (i * m.width + j)) % m.width = j := by
    rw [show k * (t.height * m.width) + (i * m.width + j) =
        m.width * (k * t.height + i * 1) + j from by ring,
      Nat.mul_add_mod, Nat.mod_eq_of_lt hj]
  unfold Tensor.dot
  simp only
  rw [e1, if_pos hlen, hdiv, hmod, hdiv2, hmodW]

/-- C2: `dot` is batched matrix multiplication.  The result has batch
`t.batch`, height `t.height` and width `m.width`; with `m.batch = 1` every
batch slice of the result is the matrix product of the corresponding slice
of `t` with the single matrix `m`, and with `m.batch = t.batch` it is the
per-sample product with slice `k` of `m`. -/
theorem dot_batchedMatmul (t m : Tensor) (hinner : m.height = t.width) :
    (t.dot m).batch = t.batch ∧ (t.dot m).height = t.height ∧
      (t.dot m).width = m.width ∧
      ∀ k i j, k < t.batch → i < t.height → j < m.width →
        (m.batch = 1 →
          (t.dot m).getValue k i j =
            matProdEntry (t.getValue k) (m.getValue 0) t.width i j) ∧
        (m.batch = t.batch →
          (t.dot m).getValue k i j =
            matProdEntry (t.getValue k) (m.getValue k) t.width i j) := by
  refine ⟨rfl, rfl, rfl, ?_⟩
  intro k i j hk hi hj
  have hgv : (t.dot m).getValue k i j =
      (t.dot m).data (k * t.height * m.width + i * m.width + j) := rfl
  have hdd := dot_data t m k i j hk hi hj
  constructor
  · intro hmb
    rw [hgv, hdd, if_pos hmb]
    unfold matProdEntry Tensor.getValue
    refine Finset.sum_congr rfl ?_
    intro h _
    congr 1
    · congr 1
      ring
    · congr 1
      ring
  · intro hmb
    by_cases hb1 : m.batch = 1
    · have hk0 : k = 0 := by omega
      subst hk0
      rw [hgv, hdd, if_pos hb1]
      unfold matProdEntry Tensor.getValue
      refine Finset.sum_congr rfl ?_
      intro h _
      congr 1
      · congr 1
        ring
      · congr 1
        ring
    · rw [hgv, hdd, if_neg hb1]
      unfold matProdEntry Tensor.getValue
      refine Finset.sum_congr rfl ?_
      intro h _
      congr 1
      · congr 1
        ring
      · congr 1
        rw [hinner]
        ring

/-- C2 witness: `dot` of the (1,2,2) matrix [[1,2],[3,4]] with the (1,2,2)
matrix [[5,6],[7,8]]: entry (0,1,0) is 3*5 + 4*7 = 43, via both parts of
the theorem (`m.batch = 1` and `m.batch = t.batch` coincide here). -/
theorem dot_batchedMatmul_witness :
    ((⟨1, 2, 2, fun idx => [1, 2, 3, 4].getD idx 0⟩ : Tensor).dot
        ⟨1, 2, 2, fun idx => [5, 6, 7, 8].getD idx 0⟩).getValue 0 1 0 = 43 := by
  have h := dot_batchedMatmul
    (⟨1, 2, 2, fun idx => [1, 2, 3, 4].getD idx 0⟩ : Tensor)
    (⟨1, 2, 2, fun idx => [5, 6, 7, 8].getD idx 0⟩ : Tensor) rfl
  have h2 := (h.2.2.2 0 1 0 (by decide) (by decide) (by decide)).1 rfl
  rw [h2]
  norm_num [matProdEntry, Tensor.getValue, Finset.sum_range_succ]

/-- The `ActivationLayer::softmaxPrime` loops (activation_layer.cpp lines
195-218), `is_derivative` case: over the four axes `(k, c, i, j)` with row
start `I = K + c*height*width + i*width` (so `I = idx/width*width` and
`j = idx % width` for the written flat index `idx = I + j`), the output is
`sum over l < width of val * d[I+l]` with `val = x[I+l]*(1 - x[I+j])` when
`j == l` and `val = -x[I+l]*x[I+j]` otherwise. -/
def softmaxPrime (batch channel height width : ℕ) (x d : ℕ → ℚ) : ℕ → ℚ :=
  fun idx =>
    if idx < batch * channel * height * width then
      ∑ l in Finset.range width,
        (if idx % width = l then
            x (idx / width * width + l) * (1 - x idx)
          else -(x (idx / width * width + l)) * x idx) *
          d (idx / width * width + l)
    else 0

/-- C8: at every valid 4-axis position, `softmaxPrime` is exactly the claimed
Jacobian-vector accumulation, and that accumulation equals the standard
closed form `x_j * (d_j - sum over l of x_l * d_l)` of the softmax
Jacobian-vector product. -/
theorem softmaxPrime_jacobian (b c h w : ℕ) (x d : ℕ → ℚ)
    (k ci i j : ℕ) (hk : k < b) (hc : ci < c) (hi : i < h) (hj : j < w) :
    softmaxPrime b c h w x d (((k * c + ci) * h + i) * w + j) =
      (∑ l in Finset.range w,
        (if j = l then
            x (((k * c + ci) * h + i) * w + l) *
              (1 - x (((k * c + ci) * h + i) * w + j))
          else -(x (((k * c + ci) * h + i) * w + l)) *
            x (((k * c + ci) * h + i) * w + j)) *
          d (((k * c + ci) * h + i) * w + l)) ∧
    softmaxPrime b c h w x d (((k * c + ci) * h + i) * w + j) =
      x (((k * c + ci) * h + i) * w + j) *
        (d (((k * c + ci) * h + i) * w + j) -
          ∑ l in Finset.range w,
            x (((k * c + ci) * h + i) * w + l) *
              d (((k * c + ci) * h + i) * w + l)) := by
  have hw0 : 0 < w := by omega
  have hR : (k * c + ci) * h + i < b * c * h := by
    have h1 : k * c + ci < b * c := by
      have h2 : (k + 1) * c = k * c + c := by ring
      have h3 : (k + 1) * c ≤ b * c := Nat.mul_le_mul_right _ (by omega)
      omega
    have h4 : ((k * c + ci) + 1) * h = (k * c + ci) * h + h := by ring
    have h5 : ((k * c + ci) + 1) * h ≤ (b * c) * h :=
      Nat.mul_le_mul_right _ (by omega)
    omega
  have hlen : ((k * c + ci) * h + i) * w + j < b * c * h * w := by
    have h4 : (((k * c + ci) * h + i) + 1) * w = ((k * c + ci) * h + i) * w + w := by
      ring
    have h5 : (((k * c + ci) * h + i) + 1) * w ≤ (b * c * h) * w :=
      Nat.mul_le_mul_right _ (by omega)
    omega
  have hmod : (((k * c + ci) * h + i) * w + j) % w = j := by
    rw [show ((k * c + ci) * h + i) * w + j = w * ((k * c + ci) * h + i) + j
        from by ring, Nat.mul_add_mod, Nat.mod_eq_of_lt hj]
  have hdiv : (((k * c + ci) * h + i) * w + j) / w * w = ((k * c + ci) * h + i) * w := by
    rw [show ((k * c + ci) * h + i) * w + j = w * ((k * c + ci) * h + i) + j
        from by ring, Nat.mul_add_div hw0, Nat.div_eq_of_lt hj, Nat.add_zero]
  have hfirst : softmaxPrime b c h w x d (((k * c + ci) * h + i) * w + j) =
      ∑ l in Finset.range w,
        (if j = l then
            x (((k * c + ci) * h + i) * w + l) *
              (1 - x (((k * c + ci) * h + i) * w + j))
          else -(x (((k * c + ci) * h + i) * w + l)) *
            x (((k * c + ci) * h + i) * w + j)) *
          d (((k * c + ci) * h + i) * w + l) := by
    unfold softmaxPrime
    rw [if_pos hlen]
    rw [hmod, hdiv]
  refine ⟨hfirst, ?_⟩
  rw [hfirst]
  have key : ∀ l ∈ Finset.range w,
      (if j = l then
          x (((k * c + ci) * h + i) * w + l) *
            (1 - x (((k * c + ci) * h + i) * w + j))
        else -(x (((k * c + ci) * h + i) * w + l)) *
          x (((k * c + ci) * h + i) * w + j)) *
        d (((k * c + ci) * h + i) * w + l) =
      -(x (((k * c + ci) * h + i) * w + j) *
          (x (((k * c + ci) * h + i) * w + l) *
            d (((k * c + ci) * h + i) * w + l))) +
        (if j = l then
          x (((k * c + ci) * h + i) * w + j) *
            d (((k * c + ci) * h + i) * w + j)
        else 0) := by
    intro l _
    by_cases hl : j = l
    · subst hl
      rw [if_pos rfl, if_pos rfl]
      ring
    · rw [if_neg hl, if_neg hl]
      ring
  rw [Finset.sum_congr rfl key, Finset.sum_add_distrib,
    Finset.sum_ite_eq (Finset.range w) j, if_pos (Finset.mem_range.mpr hj),
    Finset.sum_neg_distrib, ← Finset.mul_sum]
  ring

/-- C8 witness: one row of width 2 with softmax output x = [1/4, 3/4] and
upstream gradient d = [1, 2]: the Jacobian-vector product at j = 0 is
(1/4)*(1 - (1/4 + 3/2)) = -3/16. -/
theorem softmaxPrime_jacobian_witness :
    softmaxPrime 1 1 1 2 (fun idx => [1/4, 3/4].getD idx 0)
        (fun idx => [1, 2].getD idx 0) 0 = -(3/16) := by
  have h := (softmaxPrime_jacobian 1 1 1 2
    (fun idx => [1/4, 3/4].getD idx 0) (fun idx => [1, 2].getD idx 0)
    0 0 0 0 (by decide) (by decide) (by decide) (by decide)).2
  rw [show (((0 * 1 + 0) * 1 + 0) * 2 + 0 : ℕ) = 0 from rfl] at h
  rw [h]
  norm_num [Finset.sum_range_succ]

/-- The value `*std::max_element(dp + index, dp + index + n)` computes
(activation_layer.cpp line 152): the maximum of the `n` row elements
starting at `index` (folded with the first element as the running value,
as `max_element` does for a nonempty range). -/
def rowMax (d : ℕ → ℚ) (index n : ℕ) : ℚ :=
  ((List.range n).map (fun i => d (index + i))).foldl max (d index)

/-- The per-batch max subtraction of `ActivationLayer::softmax`
(activation_layer.cpp lines 149-157): for every index inside the
`batch * featLen` buffer, `saxpy(featLen, -1, ones*m, dp+index)` subtracts
the maximum of that row; `idx / featLen * featLen` is the row start. -/
def shiftRows (batch featLen : ℕ) (x : ℕ → ℚ) : ℕ → ℚ :=
  fun idx =>
    if idx < batch * featLen then
      x idx - rowMax x (idx / featLen * featLen) featLen
    else x idx

/-- Modelled from the spec: `Tensor::apply(f)` (called at
activation_layer.cpp line 160 as `divisor.apply(exp_util, output)`) maps a
scalar function elementwise; the nntrainer implementation is declared in
the header under src but its body is not in the repository sources. -/
def applyFn (E : ℚ → ℚ) (x : ℕ → ℚ) : ℕ → ℚ := fun idx => E (x idx)

/-- Modelled from the spec: `Tensor::sum_by_batch()` (called at
activation_layer.cpp line 163) reduces every non-batch axis, yielding a
`(batch,1,1,1)` tensor whose entry `k` is the sum of the
`featLen` elements of batch `k`; the implementation body is not in the repository
sources. -/
def sumByBatch (featLen : ℕ) (x : ℕ → ℚ) : ℕ → ℚ :=
  fun k => ∑ i in Finset.range featLen, x (k * featLen + i)

/-- The final row division of `ActivationLayer::softmax`
(activation_layer.cpp lines 165-170): each element of row `k` is divided by
`sum.getValue(k, 0, 0, 0)`. -/
def divideRows (batch featLen : ℕ) (x s : ℕ → ℚ) : ℕ → ℚ :=
  fun idx =>
    if idx < batch * featLen then x idx / s (idx / featLen) else x idx

/-- Embeds `ActivationLayer::softmax` (activation_layer.cpp lines 135-173),
parameterized by the scalar exponential `E` standing for `exp_util`:
subtract the maximum of each batch row, apply `E` elementwise, then divide each
row by its `sum_by_batch` entry. -/
def ALsoftmax (E : ℚ → ℚ) (batch featLen : ℕ) (x : ℕ → ℚ) : ℕ → ℚ :=
  divideRows batch featLen (applyFn E (shiftRows batch featLen x))
    (sumByBatch featLen (applyFn E (shiftRows batch featLen x)))

/-- Adding the constant `c` to every element of batch row `k` (the input
transformation in the stability property of the claim). -/
def addToRow (k featLen : ℕ) (c : ℚ) (x : ℕ → ℚ) : ℕ → ℚ :=
  fun idx =>
    if k * featLen ≤ idx ∧ idx < (k + 1) * featLen then x idx + c else x idx

theorem rowIdx_lt (batch featLen k j : ℕ) (hk : k < batch) (hj : j < featLen) :
    k * featLen + j < batch * featLen := by
  have h1 : (k + 1) * featLen = k * featLen + featLen := by ring
  have h2 : (k + 1) * featLen ≤ batch * featLen :=
    Nat.mul_le_mul_right _ (by omega)
  omega

theorem rowIdx_div (featLen k j : ℕ) (hf : 0 < featLen) (hj : j < featLen) :
    (k * featLen + j) / featLen = k := by
  rw [show k * featLen + j = featLen * k + j from by ring,
    Nat.mul_add_div hf, Nat.div_eq_of_lt hj, Nat.add_zero]

theorem shiftRows_row (batch featLen : ℕ) (x : ℕ → ℚ) (k j : ℕ)
    (hk : k < batch) (hf : 0 < featLen) (hj : j < featLen) :
    shiftRows batch featLen x (k * featLen + j) =
      x (k * featLen + j) - rowMax x (k * featLen) featLen := by
  unfold shiftRows
  rw [if_pos (rowIdx_lt batch featLen k j hk hj),
    rowIdx_div featLen k j hf hj]

/-- The closed form of one `ALsoftmax` entry inside row `k`. -/
theorem ALsoftmax_entry (E : ℚ → ℚ) (batch featLen : ℕ) (x : ℕ → ℚ)
    (k j : ℕ) (hk : k < batch) (hf : 0 < featLen) (hj : j < featLen) :
    ALsoftmax E batch featLen x (k * featLen + j) =
      E (x (k * featLen + j) - rowMax x (k * featLen) featLen) /
        ∑ l in Finset.range featLen,
          E (x (k * featLen + l) - rowMax x (k * featLen) featLen) := by
  unfold ALsoftmax divideRows
  rw [if_pos (rowIdx_lt batch featLen k j hk hj),
    rowIdx_div featLen k j hf hj]
  unfold applyFn sumByBatch
  rw [shiftRows_row batch featLen x k j hk hf hj]
  congr 1
  refine Finset.sum_congr rfl ?_
  intro l hl
  simp only [shiftRows_row batch featLen x k l hk hf (Finset.mem_range.mp hl)]

theorem foldl_max_map_add (l : List ℚ) (a c : ℚ) :
    ((l.map (fun y => y + c)).foldl max (a + c)) = l.foldl max a + c := by
  induction l generalizing a with
  | nil => rfl
  | cons b tl ih =>
      simp only [List.map_cons, List.foldl_cons]
      rw [max_add_add_right]
      exact ih (max a b)

theorem rowMax_addToRow (featLen k : ℕ) (c : ℚ) (x : ℕ → ℚ)
    (hf : 0 < featLen) :
    rowMax (addToRow k featLen c x) (k * featLen) featLen =
      rowMax x (k * featLen) featLen + c := by
  have hrow : ∀ i, i < featLen →
      addToRow k featLen c x (k * featLen + i) = x (k * featLen + i) + c := by
    intro i hi
    unfold addToRow
    have h1 : (k + 1) * featLen = k * featLen + featLen := by ring
    rw [if_pos (by omega)]
  unfold rowMax
  have hmap : (List.range featLen).map
      (fun i => addToRow k featLen c x (k * featLen + i)) =
      (List.range featLen).map (fun i => x (k * featLen + i) + c) := by
    refine List.map_congr_left ?_
    intro i hi
    exact hrow i (List.mem_range.mp hi)
  have hmap2 : (List.range featLen).map (fun i => x (k * featLen + i) + c) =
      ((List.range featLen).map (fun i => x (k * featLen + i))).map
        (fun y => y + c) := by
    rw [List.map_map]
    rfl
  have h0 : addToRow k featLen c x (k * featLen) = x (k * featLen) + c := by
    have := hrow 0 hf
    simpa using this
  rw [hmap, hmap2, h0, foldl_max_map_add]

/-- C3: `ActivationLayer::softmax` computes, per batch row: subtract the row
maximum, apply the exponential, divide by the row sum of exponentials
(first conjunct); consequently, when the exponential is positive, every
row of the output sums to exactly 1, and adding one constant to every
element of a row leaves the output of that row unchanged.  Stated for an
arbitrary positive scalar function `E` standing for `exp_util`. -/
theorem softmax_rowProperties (E : ℚ → ℚ) (hE : ∀ y, 0 < E y)
    (batch featLen : ℕ) (hf : 0 < featLen) (x : ℕ → ℚ) (k : ℕ)
    (hk : k < batch) :
    (∀ j, j < featLen →
      ALsoftmax E batch featLen x (k * featLen + j) =
        E (x (k * featLen + j) - rowMax x (k * featLen) featLen) /
          ∑ l in Finset.range featLen,
            E (x (k * featLen + l) - rowMax x (k * featLen) featLen)) ∧
    (∑ j in Finset.range featLen,
      ALsoftmax E batch featLen x (k * featLen + j)) = 1 ∧
    (∀ c : ℚ, ∀ j, j < featLen →
      ALsoftmax E batch featLen (addToRow k featLen c x) (k * featLen + j) =
        ALsoftmax E batch featLen x (k * featLen + j)) := by
  have hDpos : 0 < ∑ l in Finset.range featLen,
      E (x (k * featLen + l) - rowMax x (k * featLen) featLen) :=
    Finset.sum_pos (fun l _ => hE _) (Finset.nonempty_range_iff.mpr (by omega))
  refine ⟨fun j hj => ALsoftmax_entry E batch featLen x k j hk hf hj, ?_, ?_⟩
  · rw [Finset.sum_congr rfl
      (fun j hj => ALsoftmax_entry E batch featLen x k j hk hf
        (Finset.mem_range.mp hj))]
    rw [← Finset.sum_div]
    exact div_self (ne_of_gt hDpos)
  · intro c j hj
    rw [ALsoftmax_entry E batch featLen (addToRow k featLen c x) k j hk hf hj,
      ALsoftmax_entry E batch featLen x k j hk hf hj]
    have hswap : ∀ i, i < featLen →
        addToRow k featLen c x (k * featLen + i) -
            rowMax (addToRow k featLen c x) (k * featLen) featLen =
          x (k * featLen + i) - rowMax x (k * featLen) featLen := by
      intro i hi
      rw [rowMax_addToRow featLen k c x hf]
      unfold addToRow
      have h1 : (k + 1) * featLen = k * featLen + featLen := by ring
      rw [if_pos (by omega)]
      ring
    rw [hswap j hj]
    congr 1
    refine Finset.sum_congr rfl ?_
    intro l hl
    rw [hswap l (Finset.mem_range.mp hl)]

/-- C3 witness: with the scalar function constantly 1 (positive and
shift-insensitive, enough to exercise the theorem), batch 1 and a row
[0, 0] of length 2, the theorem gives row sum 1 and stability under
adding 5 to the row; entry 0 evaluates to 1/2. -/
theorem softmax_rowProperties_witness :
    (∑ j in Finset.range 2,
      ALsoftmax (fun _ => 1) 1 2 (fun _ => 0) (0 * 2 + j)) = 1 ∧
    ALsoftmax (fun _ => 1) 1 2 (addToRow 0 2 5 (fun _ => 0)) (0 * 2 + 0) =
      ALsoftmax (fun _ => 1) 1 2 (fun _ => 0) (0 * 2 + 0) ∧
    ALsoftmax (fun _ => 1) 1 2 (fun _ => 0) (0 * 2 + 0) = 1 / 2 := by
  have h := softmax_rowProperties (fun _ => 1) (fun _ => one_pos) 1 2
    (by decide) (fun _ => 0) 0 (by decide)
  refine ⟨h.2.1, h.2.2 5 0 (by decide), ?_⟩
  rw [h.1 0 (by decide)]
  norm_num [rowMax, Finset.sum_range_succ]
